import Mathlib

/-!
Verification of the diagnostics core of `distributed/diagnostics/scheduler.py`.

The file shallowly embeds the four functions of that module —
`scheduler_status_str`, `scheduler_progress_df`, `worker_status_df`, `status`
and `workers` — over explicit value models of Python dictionaries, pandas
rows, and (for the aliasing questions) a small mutable store, and proves the
specified properties about them.
-/

namespace SchedDiag

/-! ## Lexicographic string order

Python compares strings lexicographically by code point.  The core `String`
order in Lean is not kernel-reducible, so we define our own boolean
lexicographic order over `String.data` and develop the order lemmas needed
for sorting. -/
/-- Lexicographic strict order on lists of characters, by code point. -/
def lexLt : List Char → List Char → Bool
  | [], [] => false
  | [], _ :: _ => true
  | _ :: _, [] => false
  | a :: as, b :: bs =>
    if a.toNat < b.toNat then true
    else if b.toNat < a.toNat then false
    else lexLt as bs

/-- Python's `<` on strings: lexicographic by code point. -/
def sLt (a b : String) : Bool := lexLt a.data b.data

/-- Python's `<=` on strings, as the reflexive closure of `sLt` via totality. -/
def sLe (a b : String) : Bool := !(sLt b a)

/-! ## Sorting (Python `sorted` / pandas `sort_index`)

Python's `sorted` returns the list in ascending order of the element order;
we model it with insertion sort over `sLe`, which computes the same ascending
arrangement because `sLe` is a total order. -/
/-- Insert a string into a sorted list of strings. -/
def insortS (x : String) : List String → List String
  | [] => [x]
  | y :: ys => if sLe x y then x :: y :: ys else y :: insortS x ys

/-- Ascending lexicographic sort of a list of strings (Python `sorted`). -/
def sortS : List String → List String
  | [] => []
  | x :: xs => insortS x (sortS xs)

/-! ## The status dictionary

The `status.json` payload consumed by the renderers is a Python dictionary.
We model it as an association list from string keys to values of the shapes
that actually occur: integers, strings, worker→int maps and
worker→(family→count) maps. -/
/-- A value of the status dictionary. -/
inductive PyVal where
  /-- an integer counter -/
  | int (n : Nat)
  /-- a string (the scheduler address) -/
  | str (s : String)
  /-- a map worker-address → integer (`ncores`, `bytes`) -/
  | dictN (m : List (String × Nat))
  /-- a map worker-address → family → count (`processing`) -/
  | dictD (m : List (String × List (String × Nat)))
  deriving DecidableEq, Repr

/-- A Python dictionary with string keys; the first binding of a key wins,
matching unique-key dictionaries. -/
abbrev SDict := List (String × PyVal)

/-- Lookup `d[k]`: the first binding of `k`, if any. -/
def lookupD {α : Type} (d : List (String × α)) (k : String) : Option α :=
  match d with
  | [] => none
  | (k1, v) :: rest => if k1 = k then some v else lookupD rest k

/-- Assignment `d[k] = v`: overwrite the binding in place, or append a new one. -/
def dinsert (d : SDict) (k : String) (v : PyVal) : SDict :=
  match d with
  | [] => [(k, v)]
  | (k1, v1) :: rest => if k1 = k then (k, v) :: rest else (k1, v1) :: dinsert rest k v

/-- Removal part of `d.pop(k)`: drop the binding of `k`. -/
def dremove (d : SDict) (k : String) : SDict :=
  match d with
  | [] => []
  | (k1, v1) :: rest => if k1 = k then rest else (k1, v1) :: dremove rest k

/-- Read `d[k]` when an integer is expected. -/
def getInt (d : SDict) (k : String) : Option Nat :=
  match lookupD d k with
  | some (.int n) => some n
  | _ => none

/-- Read `d[k]` when a string is expected. -/
def getStr (d : SDict) (k : String) : Option String :=
  match lookupD d k with
  | some (.str s) => some s
  | _ => none

/-- Read `d[k]` when a worker→int map is expected. -/
def getDictN (d : SDict) (k : String) : Option (List (String × Nat)) :=
  match lookupD d k with
  | some (.dictN m) => some m
  | _ => none

/-- Read `d[k]` when a worker→(family→count) map is expected. -/
def getDictD (d : SDict) (k : String) : Option (List (String × List (String × Nat))) :=
  match lookupD d k with
  | some (.dictD m) => some m
  | _ => none

/-! ## `scheduler_progress_df` -/
/-- One cell of the `Progress` column: either a rendered bar string, or the
integer `0` that the source assigns to the whole column when `total` is
falsy. -/
inductive PCell where
  | num (n : Nat)
  | str (s : List Char)
  deriving DecidableEq, Repr

/-- One row of the progress table: task state name, `Count`, `Progress`. -/
structure PRow where
  task : String
  count : Nat
  progress : PCell
  deriving DecidableEq, Repr

/-- Rendering `'%-40s' % (n * '+')`: `n` markers, left-justified to column width 40.
(The source's `.rstrip(' ')` on `n * '+'` is the identity.) -/
def barCell (n : Nat) : List Char :=
  List.replicate n '+' ++ List.replicate (40 - n) ' '

/-- Number of `'+'` marker units in a progress cell. -/
def markers : PCell → Nat
  | .num _ => 0
  | .str s => s.count '+'

/-- Computation of `d['in-progress']`: the sum over all workers of all per-family counts of
that worker's processing map. -/
def sumProc (proc : List (String × List (String × Nat))) : Nat :=
  (proc.map (fun wv => (wv.2.map (fun fc => fc.2)).sum)).sum

/-- One progress row: `if d['total']:` renders `floor(40*count/total)`
markers, else the column is the integer `0`. -/
def progressRow (total : Nat) (k : String) (c : Nat) : PRow :=
  ⟨k, c, if total = 0 then PCell.num 0 else PCell.str (barCell (40 * c / total))⟩

/-- The six fixed rows, in source order, rendered against `total`. -/
def progressRows (w r f ip m t : Nat) : List PRow :=
  [("waiting", w), ("ready", r), ("failed", f),
   ("in-progress", ip), ("in-memory", m), ("total", t)].map
    (fun kc => progressRow t kc.1 kc.2)

/-- Embedding of `scheduler_progress_df`.  The body operates on `d.copy()`:
it inserts `in-progress`, pops `tasks` into `total`, reads the six named
counters from the mutated copy, and renders the `Progress` column. -/
def scheduler_progress_df (d : SDict) : Option (List PRow) := do
  let proc ← getDictD d "processing"
  let dc := d
  let dc := dinsert dc "in-progress" (.int (sumProc proc))
  let tasks ← getInt dc "tasks"
  let dc := dinsert (dremove dc "tasks") "total" (.int tasks)
  let waiting ← getInt dc "waiting"
  let ready ← getInt dc "ready"
  let failed ← getInt dc "failed"
  let inprog ← getInt dc "in-progress"
  let inmem ← getInt dc "in-memory"
  let total ← getInt dc "total"
  pure (progressRows waiting ready failed inprog inmem total)

/-- The call-level view of `scheduler_progress_df`: result paired with the
caller's dictionary after the call.  The source's first statement
`d = d.copy()` rebinds the local name to a copy, so the caller's dictionary
is never written. -/
def scheduler_progress_df_call (d : SDict) : Option (List PRow) × SDict :=
  (scheduler_progress_df d, d)

/-! ## Option-valued traversal

A small structural `mapM` for `Option`, used for computations whose Python
original raises `KeyError` on a missing dictionary key. -/
/-- Map a fallible function over a list; any failure fails the whole call. -/
def mapOptM {α β : Type} (f : α → Option β) : List α → Option (List β)
  | [] => some []
  | x :: xs => do
    let y ← f x
    let ys ← mapOptM f xs
    pure (y :: ys)

/-! ## `worker_status_df` -/
/-- One row of the worker table: the index (worker address) and the
`Ncores`, `Bytes`, `Processing` columns. -/
structure WRow where
  addr : String
  ncores : Nat
  bytesStored : Nat
  processing : List String
  deriving DecidableEq, Repr

/-- Embedding of `worker_status_df`.  The frame is built from the `ncores`,
`bytes` and `processing` maps; its index is the union of their key sets
(pandas aligns the three columns on it) and is sorted ascending by
`df.sort_index()`.  The `Processing` cell is `sorted(dict)`: the ascending
list of the worker's family names.  A worker address missing from one of
the three maps is modelled as failure (pandas would put a NaN there, and
`sorted` of a NaN raises). -/
def wrowBuild (nc bys : List (String × Nat))
    (pr : List (String × List (String × Nat))) (a : String) : Option WRow := do
  let n ← lookupD nc a
  let b ← lookupD bys a
  let p ← lookupD pr a
  pure ⟨a, n, b, sortS (p.map Prod.fst)⟩

def worker_status_df (d : SDict) : Option (List WRow) := do
  let nc ← getDictN d "ncores"
  let bys ← getDictN d "bytes"
  let pr ← getDictD d "processing"
  let addrs := sortS ((nc.map Prod.fst ++ bys.map Prod.fst ++ pr.map Prod.fst).dedup)
  mapOptM (wrowBuild nc bys pr) addrs

/-! ## `countby` (from toolz) and `key_split`

`key_split` is an external dependency; it is taken as an opaque function
parameter `ks` throughout.  `countby(key_split, seq)` builds a family→count
map in first-occurrence order. -/
/-- Update `d[k] = d.get(k, 0) + 1`, preserving first-occurrence insertion order. -/
def incr (acc : List (String × Nat)) (k : String) : List (String × Nat) :=
  match acc with
  | [] => [(k, 1)]
  | (k1, n) :: rest => if k1 = k then (k1, n + 1) :: rest else (k1, n) :: incr rest k

/-- Left fold of `incr` over the sequence of resolved families. -/
def countbyAux (ks : String → String) (acc : List (String × Nat)) :
    List String → List (String × Nat)
  | [] => acc
  | x :: xs => countbyAux ks (incr acc (ks x)) xs

/-- Model of `toolz.countby(ks, xs)`: count occurrences of each family `ks x`. -/
def countby (ks : String → String) (xs : List String) : List (String × Nat) :=
  countbyAux ks [] xs

/-! ## `workers` (host-level aggregation)

`workers(s)` reads `s.host_info` (per-host resource records) and
`s.processing` (per-worker sets of task keys), derives each host's worker
addresses from its `ports`, aggregates per-host family counts with
`countby(key_split, concat(...))`, and copies the resource fields, dropping
`heartbeat` and `heartbeat-port` and replacing `last-seen` by the elapsed
seconds `now - last-seen`. -/
/-- A host record of `s.host_info` (time modelled as integer seconds). -/
structure HostRecord where
  cores : Int
  cpu : Int
  totalMemory : Int
  availableMemory : Int
  ports : List String
  lastSeen : Int
  heartbeat : Int
  heartbeatPort : Nat
  deriving DecidableEq, Repr

/-- The slice of scheduler state read by `workers`. -/
structure WState where
  host_info : List (String × HostRecord)
  processing : List (String × List String)
  deriving DecidableEq, Repr

/-- An emitted host record: the copy without `heartbeat`/`heartbeat-port`,
with aggregated `processing`, copied `ports` and elapsed `last-seen`. -/
structure HostOut where
  cores : Int
  cpu : Int
  totalMemory : Int
  availableMemory : Int
  ports : List String
  processing : List (String × Nat)
  lastSeen : Int
  deriving DecidableEq, Repr

/-- The entry `workers` emits for one host of `s.host_info`: worker
addresses are `host:port` for each port; their key lists are concatenated
and counted by family; a worker address missing from `s.processing` is a
`KeyError`, modelled as failure. -/
def hostEntry (ks : String → String) (now : Int)
    (proc : List (String × List String)) (h : String) (info : HostRecord) :
    Option (String × HostOut) := do
  let addrs := info.ports.map (fun p => h ++ ":" ++ p)
  let keyLists ← mapOptM (lookupD proc) addrs
  pure (h, { cores := info.cores, cpu := info.cpu,
             totalMemory := info.totalMemory,
             availableMemory := info.availableMemory,
             ports := info.ports,
             processing := countby ks keyLists.join,
             lastSeen := now - info.lastSeen })

/-- Embedding of `workers(s)`: one emitted entry per `s.host_info` entry. -/
def workersAgg (ks : String → String) (now : Int) (s : WState) :
    Option (List (String × HostOut)) :=
  mapOptM (fun hi => hostEntry ks now s.processing hi.1 hi.2) s.host_info

/-! ## `status` and the aliasing model

`status(s)` returns a dictionary whose `ncores` entry is the expression
`s.ncores` itself — the scheduler's live dictionary object, not a copy.  To
state what that means we model object identity explicitly: a small store of
worker→int dictionaries addressed by references, with the scheduler state
holding a reference to its `ncores` dictionary. -/
/-- A heap of worker→int dictionaries, addressed by index. -/
structure Store where
  cells : List (List (String × Nat))
  deriving DecidableEq, Repr

/-- Dereference a cell. -/
def readCell (σ : Store) (r : Nat) : List (String × Nat) :=
  σ.cells.getD r []

/-- Mutate a cell in place. -/
def writeCell (σ : Store) (r : Nat) (d : List (String × Nat)) : Store :=
  ⟨σ.cells.set r d⟩

/-- The slice of scheduler state read by `status`; `ncoresRef` is the
reference to the scheduler-owned `ncores` dictionary. -/
structure SchedState where
  address : String
  ncoresRef : Nat
  nbytes : List (String × Nat)
  has_what : List (String × List String)
  processing : List (String × List String)
  nTasks : Nat
  nWhoHas : Nat
  ready : List String
  stacksL : List (String × List String)
  nWaiting : Nat
  nFailed : Nat
  deriving DecidableEq, Repr

/-- The dictionary `status` returns.  Every field holds a computed value
except `ncores`, which holds the reference `s.ncores` itself. -/
structure StatusResult where
  address : String
  ncores : Nat
  bytesPerWorker : List (String × Nat)
  processing : List (String × List (String × Nat))
  tasks : Nat
  inMemory : Nat
  ready : Nat
  waiting : Nat
  failed : Nat
  deriving DecidableEq, Repr

/-- Embedding of `status(s)` against the store.  `workers = list(s.ncores)`
reads the live dictionary through the reference; `bytes` sums
`s.nbytes[k]` over `s.has_what[w]` (a missing key is a `KeyError`);
`ncores` is returned by reference. -/
def statusAgg (ks : String → String) (s : SchedState) (σ : Store) :
    Option StatusResult := do
  let workerL := (readCell σ s.ncoresRef).map Prod.fst
  let bytes ← mapOptM (fun w => do
      let hw ← lookupD s.has_what w
      let vs ← mapOptM (lookupD s.nbytes) hw
      pure (w, vs.sum)) workerL
  let processing := s.processing.map (fun wt => (wt.1, countby ks wt.2))
  pure { address := s.address,
         ncores := s.ncoresRef,
         bytesPerWorker := bytes,
         processing := processing,
         tasks := s.nTasks,
         inMemory := s.nWhoHas,
         ready := s.ready.length + (s.stacksL.map (fun p => p.2.length)).sum,
         waiting := s.nWaiting,
         failed := s.nFailed }

/-! ## `scheduler_status_str` (text composition)

The source composes `"Scheduler: %s\n\n%s\n\n%s"` from the address and the
two rendered tables (pandas `str(df)` is an external renderer, taken as
opaque strings here), splits the result on `os.linesep`, strips each piece's
trailing whitespace, and joins the pieces with `os.linesep` again.
`os.linesep` is a platform constant, taken as a parameter. -/
/-- Python whitespace (the characters `str.rstrip` strips by default). -/
def isPySpace (c : Char) : Bool :=
  c == ' ' || c == '\t' || c == '\n' || c == '\r' || c == '\x0b' || c == '\x0c'

/-- Model of `str.rstrip()`: drop trailing whitespace. -/
def rstrip (l : List Char) : List Char :=
  (l.reverse.dropWhile isPySpace).reverse

/-- Fuelled splitting of a character list on a separator sequence,
left-to-right, no merging of adjacent separators (Python `str.split(sep)`). -/
def splitFuel (sep : List Char) : Nat → List Char → List (List Char)
  | 0, s => [s]
  | n + 1, s =>
    match s with
    | [] => [[]]
    | x :: rest =>
      if sep.isPrefixOf (x :: rest) then
        [] :: splitFuel sep n ((x :: rest).drop sep.length)
      else
        match splitFuel sep n rest with
        | [] => [[]]
        | l :: ls => (x :: l) :: ls

/-- Model of `s.split(sep)` for a nonempty separator. -/
def splitOnSep (sep s : List Char) : List (List Char) :=
  splitFuel sep (s.length + 1) s

/-- Model of `s.split(sep)` for a one-character separator (structural form). -/
def splitOnChar (c : Char) : List Char → List (List Char)
  | [] => [[]]
  | x :: rest =>
    match splitOnChar c rest with
    | [] => [[]]
    | l :: ls => if x = c then [] :: l :: ls else (x :: l) :: ls

/-- Model of `sep.join(ls)`. -/
def joinSep (sep : List Char) : List (List Char) → List Char
  | [] => []
  | [l] => l
  | l :: ls => l ++ sep ++ joinSep sep ls

/-- The composition `"Scheduler: %s\n\n%s\n\n%s" % (address, progress, workers)`. -/
def composedStatus (addr progress workerT : List Char) : List Char :=
  ("Scheduler: ".data ++ addr) ++ ('\n' :: '\n' :: progress)
    ++ ('\n' :: '\n' :: workerT)

/-- The final post-processing of `scheduler_status_str`:
`os.linesep.join(map(str.rstrip, s.split(os.linesep)))` applied to the
composed report.  `nl` is `os.linesep`. -/
def scheduler_status_str_fmt (nl addr progress workerT : List Char) : List Char :=
  joinSep nl ((splitOnSep nl (composedStatus addr progress workerT)).map rstrip)

/-- Embedding of `scheduler_status_str(d)` over the status dictionary, taking
the two external table renderers and the platform line separator as
parameters. -/
def scheduler_status_str (renderP : List PRow → List Char)
    (renderW : List WRow → List Char) (nl : List Char) (d : SDict) :
    Option (List Char) := do
  let sched ← scheduler_progress_df d
  let workerRows ← worker_status_df d
  let addr ← getStr d "address"
  pure (scheduler_status_str_fmt nl addr.data (renderP sched) (renderW workerRows))

/-! ## Concrete inputs (from the module doctests and the testable scenarios) -/
/-- The doctest input of `scheduler_status_str`. -/
def dEx : SDict :=
  [("address", .str "SCHEDULER_ADDRESS:9999"),
   ("ready", .int 5),
   ("ncores", .dictN [("192.168.1.107:44544", 4), ("192.168.1.107:36441", 4)]),
   ("in-memory", .int 30), ("waiting", .int 20),
   ("processing", .dictD [("192.168.1.107:44544", [("inc", 3), ("add", 1)]),
                          ("192.168.1.107:36441", [("inc", 2)])]),
   ("tasks", .int 70),
   ("failed", .int 9),
   ("bytes", .dictN [("192.168.1.107:44544", 1000), ("192.168.1.107:36441", 2000)])]

/-- The progress rows computed from `dEx`. -/
def rowsEx : List PRow := progressRows 20 5 9 6 30 70

/-- An input whose `waiting` count exceeds `total`. -/
def dOver : SDict :=
  [("processing", .dictD []), ("tasks", .int 100), ("waiting", .int 101),
   ("ready", .int 0), ("failed", .int 0), ("in-memory", .int 0)]

/-- An input with `total == 0` but nonzero counters elsewhere. -/
def dZero : SDict :=
  [("processing", .dictD [("w", [("inc", 2)])]), ("tasks", .int 0),
   ("waiting", .int 3), ("ready", .int 1), ("failed", .int 0),
   ("in-memory", .int 2)]

/-! ## C10 -/
/-- The nine fields the renderers may read. -/
def requiredKeys : List String :=
  ["address", "ready", "ncores", "in-memory", "waiting", "processing",
   "tasks", "failed", "bytes"]

/-- The doctest input with an extra, unused key prepended. -/
def dExtra : SDict := ("other-keys-are-fine-too", .str "") :: dEx

/-! ## C4, C5, C7: the `workers` aggregation -/
/-- A host record violating the `available-memory < total-memory`
precondition, with a negative `cores` value as well. -/
def recBad : HostRecord :=
  { cores := -3, cpu := 0, totalMemory := 100, availableMemory := 100,
    ports := ["1"], lastSeen := 0, heartbeat := 7, heartbeatPort := 99 }

/-- A scheduler state carrying the violating record. -/
def sBad : WState :=
  { host_info := [("h", recBad)], processing := [("h:1", [])] }

/-- What `workers` emits for `sBad`. -/
def hoBad : HostOut :=
  { cores := -3, cpu := 0, totalMemory := 100, availableMemory := 100,
    ports := ["1"], processing := [], lastSeen := 0 }

/-- A host record with no workers at all (empty `ports`). -/
def recNoW : HostRecord :=
  { cores := 4, cpu := 50, totalMemory := 100, availableMemory := 60,
    ports := [], lastSeen := 2, heartbeat := 7, heartbeatPort := 99 }

/-- A scheduler state whose only host has no worker entries. -/
def sNoW : WState := { host_info := [("h", recNoW)], processing := [] }

/-- What `workers` emits for `sNoW`. -/
def hoNoW : HostOut :=
  { cores := 4, cpu := 50, totalMemory := 100, availableMemory := 60,
    ports := [], processing := [], lastSeen := -2 }

/-- The family extractor used in concrete scenarios: the key prefix before
the first dash. -/
def ksFam (k : String) : String := ⟨k.data.takeWhile (fun c => c != '-')⟩

/-- Scenario B host record: two workers on ports 44544 and 36441. -/
def recB : HostRecord :=
  { cores := 3, cpu := 0, totalMemory := 16701911040,
    availableMemory := 3496833024, ports := ["44544", "36441"],
    lastSeen := 0, heartbeat := 0, heartbeatPort := 0 }

/-- Scenario B state: the first worker processes three `inc` keys and one
`add` key, the second two `inc` keys. -/
def sB : WState :=
  { host_info := [("192.168.1.107", recB)],
    processing :=
      [("192.168.1.107:44544", ["inc-1", "inc-2", "inc-3", "add-1"]),
       ("192.168.1.107:36441", ["inc-4", "inc-5"])] }

/-- Scenario B expected output: host-level `{inc: 5, add: 1}`. -/
def hoB : HostOut :=
  { cores := 3, cpu := 0, totalMemory := 16701911040,
    availableMemory := 3496833024, ports := ["44544", "36441"],
    processing := [("inc", 5), ("add", 1)], lastSeen := 0 }

/-! ## C9 -/
/-- A store with one live `ncores` dictionary. -/
def store9 : Store := ⟨[[("w1", 4)]]⟩

/-- A scheduler state whose `ncores` reference points into `store9`. -/
def s9 : SchedState :=
  { address := "a", ncoresRef := 0, nbytes := [], has_what := [("w1", [])],
    processing := [], nTasks := 0, nWhoHas := 0, ready := [], stacksL := [],
    nWaiting := 0, nFailed := 0 }

/-- The result `status` returns for `s9` against `store9`. -/
def res9 : StatusResult :=
  { address := "a", ncores := 0, bytesPerWorker := [("w1", 0)],
    processing := [], tasks := 0, inMemory := 0, ready := 0, waiting := 0,
    failed := 0 }

/-! ## C8 -/
/-- An external progress-table renderer producing a line with trailing
whitespace (as the padded `Progress` column of `str(df)` does). -/
def rPx : List PRow → List Char := fun _ => "x ".data

/-- An external worker-table renderer. -/
def rWx : List WRow → List Char := fun _ => "y".data

/-! ## Theorems -/

theorem char_toNat_inj {a b : Char} (h : a.toNat = b.toNat) : a = b := by
  rw [← Char.ofNat_toNat a, ← Char.ofNat_toNat b, h]

theorem lexLt_irrefl (l : List Char) : lexLt l l = false := by
  induction l with
  | nil => rfl
  | cons a as ih => simp [lexLt, ih]

theorem lexLt_asymm : ∀ x y : List Char, lexLt x y = true → lexLt y x = false := by
  intro x
  induction x with
  | nil => intro y h; cases y with
    | nil => simp [lexLt] at h
    | cons b bs => simp [lexLt]
  | cons a as ih =>
    intro y h
    cases y with
    | nil => simp [lexLt] at h
    | cons b bs =>
      simp only [lexLt] at h ⊢
      rcases Nat.lt_trichotomy a.toNat b.toNat with hab | hab | hab
      · have h1 : ¬ b.toNat < a.toNat := by omega
        simp [h1, hab]
      · have h1 : ¬ a.toNat < b.toNat := by omega
        have h2 : ¬ b.toNat < a.toNat := by omega
        simp [h1, h2] at h ⊢
        exact ih bs h
      · have h1 : ¬ a.toNat < b.toNat := by omega
        simp [h1, hab] at h

theorem lexLt_trans : ∀ x y z : List Char,
    lexLt x y = true → lexLt y z = true → lexLt x z = true := by
  intro x
  induction x with
  | nil =>
    intro y z hxy hyz
    cases y with
    | nil => simp [lexLt] at hxy
    | cons b bs =>
      cases z with
      | nil => simp [lexLt] at hyz
      | cons c cs => simp [lexLt]
  | cons a as ih =>
    intro y z hxy hyz
    cases y with
    | nil => simp [lexLt] at hxy
    | cons b bs =>
      cases z with
      | nil => simp [lexLt] at hyz
      | cons c cs =>
        simp only [lexLt] at hxy hyz ⊢
        rcases Nat.lt_trichotomy a.toNat b.toNat with hab | hab | hab
        · rcases Nat.lt_trichotomy b.toNat c.toNat with hbc | hbc | hbc
          · have hac : a.toNat < c.toNat := Nat.lt_trans hab hbc
            simp [hac]
          · have hac : a.toNat < c.toNat := hbc ▸ hab
            simp [hac]
          · have h1 : ¬ b.toNat < c.toNat := by omega
            simp [h1, hbc] at hyz
        · have h1 : ¬ a.toNat < b.toNat := by omega
          have h2 : ¬ b.toNat < a.toNat := by omega
          simp [h1, h2] at hxy
          rcases Nat.lt_trichotomy b.toNat c.toNat with hbc | hbc | hbc
          · have hac : a.toNat < c.toNat := hab ▸ hbc
            simp [hac]
          · have h3 : ¬ a.toNat < c.toNat := by omega
            have h4 : ¬ c.toNat < a.toNat := by omega
            have h5 : ¬ b.toNat < c.toNat := by omega
            have h6 : ¬ c.toNat < b.toNat := by omega
            simp [h5, h6] at hyz
            simp [h3, h4]
            exact ih bs cs hxy hyz
          · have h5 : ¬ b.toNat < c.toNat := by omega
            simp [h5, hbc] at hyz
        · have h1 : ¬ a.toNat < b.toNat := by omega
          simp [h1, hab] at hxy

theorem lexLt_connex (x y : List Char) :
    lexLt x y = true ∨ x = y ∨ lexLt y x = true := by
  induction x generalizing y with
  | nil =>
    cases y with
    | nil => right; left; rfl
    | cons b bs => left; simp [lexLt]
  | cons a as ih =>
    cases y with
    | nil => right; right; simp [lexLt]
    | cons b bs =>
      rcases Nat.lt_trichotomy a.toNat b.toNat with h | h | h
      · left; simp [lexLt, h]
      · have hab : a = b := char_toNat_inj h
        subst hab
        rcases ih bs with h1 | h1 | h1
        · left; simp [lexLt, h1]
        · right; left; rw [h1]
        · right; right; simp [lexLt, h1]
      · right; right; simp [lexLt, h, Nat.not_lt_of_lt h]

theorem string_data_inj {a b : String} (h : a.data = b.data) : a = b := by
  cases a; cases b; simp_all

theorem sLe_total (a b : String) : sLe a b = true ∨ sLe b a = true := by
  by_cases h : sLt b a = true
  · right
    simp only [sLe, sLt] at h ⊢
    simp [lexLt_asymm _ _ h]
  · left
    simp only [sLe]
    simp [Bool.not_eq_true] at h
    simp [h]

theorem sLe_refl (a : String) : sLe a a = true := by
  simp [sLe, sLt, lexLt_irrefl]

theorem sLe_trans {a b c : String} (h1 : sLe a b = true) (h2 : sLe b c = true) :
    sLe a c = true := by
  simp only [sLe, sLt, Bool.not_eq_true', Bool.not_eq_true] at h1 h2 ⊢
  by_cases hca : lexLt c.data a.data = true
  · rcases lexLt_connex c.data b.data with h | h | h
    · simp [h] at h2
    · rw [h] at hca; simp [hca] at h1
    · have := lexLt_trans _ _ _ h hca
      simp [this] at h1
  · simpa using hca

theorem sLt_of_sLe_of_ne {a b : String} (h1 : sLe a b = true) (h2 : a ≠ b) :
    sLt a b = true := by
  rcases lexLt_connex a.data b.data with h | h | h
  · exact h
  · exact absurd (string_data_inj h) h2
  · simp [sLe, sLt, h] at h1

theorem insortS_perm (x : String) (l : List String) :
    (insortS x l).Perm (x :: l) := by
  induction l with
  | nil => exact List.Perm.refl _
  | cons y ys ih =>
    simp only [insortS]
    split
    · exact List.Perm.refl _
    · exact ((ih.cons y).trans (List.Perm.swap x y ys))

theorem sortS_perm (l : List String) : (sortS l).Perm l := by
  induction l with
  | nil => exact List.Perm.refl _
  | cons x xs ih =>
    exact (insortS_perm x (sortS xs)).trans (ih.cons x)

theorem insortS_pairwise (x : String) (l : List String)
    (h : l.Pairwise (fun a b => sLe a b = true)) :
    (insortS x l).Pairwise (fun a b => sLe a b = true) := by
  induction l with
  | nil => simp [insortS]
  | cons y ys ih =>
    simp only [insortS]
    split
    · rename_i hxy
      refine List.Pairwise.cons ?_ h
      intro z hz
      rcases List.mem_cons.mp hz with hz | hz
      · subst hz; exact hxy
      · exact sLe_trans hxy (List.rel_of_pairwise_cons h hz)
    · rename_i hxy
      have hyx : sLe y x = true := by
        rcases sLe_total x y with h1 | h1
        · exact absurd h1 hxy
        · exact h1
      refine List.Pairwise.cons ?_ (ih (List.Pairwise.of_cons h))
      intro z hz
      rcases List.mem_cons.mp ((insortS_perm x ys).mem_iff.mp hz) with hz' | hz'
      · subst hz'; exact hyx
      · exact List.rel_of_pairwise_cons h hz'

theorem sortS_pairwise (l : List String) :
    (sortS l).Pairwise (fun a b => sLe a b = true) := by
  induction l with
  | nil => simp [sortS]
  | cons x xs ih => exact insortS_pairwise x (sortS xs) ih

theorem sortS_pairwise_strict (l : List String) (h : l.Nodup) :
    (sortS l).Pairwise (fun a b => sLt a b = true) := by
  have hnd : (sortS l).Nodup := ((sortS_perm l).nodup_iff).mpr h
  have := (sortS_pairwise l).and hnd
  exact this.imp (fun hab => sLt_of_sLe_of_ne hab.1 hab.2)

theorem sortS_mem {x : String} {l : List String} : x ∈ sortS l ↔ x ∈ l :=
  (sortS_perm l).mem_iff

theorem lookupD_dinsert_eq (d : SDict) (k : String) (v : PyVal) :
    lookupD (dinsert d k v) k = some v := by
  induction d with
  | nil => simp [dinsert, lookupD]
  | cons p rest ih =>
    obtain ⟨k1, v1⟩ := p
    by_cases h : k1 = k
    · simp [dinsert, h, lookupD]
    · simp [dinsert, h, lookupD, ih]

theorem lookupD_dinsert_ne (d : SDict) (k k1 : String) (v : PyVal) (h : k ≠ k1) :
    lookupD (dinsert d k1 v) k = lookupD d k := by
  have h1 : ¬ k1 = k := fun hh => h hh.symm
  induction d with
  | nil => simp [dinsert, lookupD, h1]
  | cons p rest ih =>
    obtain ⟨k2, v2⟩ := p
    by_cases h2 : k2 = k1
    · simp [dinsert, h2, lookupD, h1]
    · by_cases h3 : k2 = k
      · simp [dinsert, h2, lookupD, h3, h]
      · simp [dinsert, h2, lookupD, h3, ih]

theorem lookupD_dremove_ne (d : SDict) (k k1 : String) (h : k ≠ k1) :
    lookupD (dremove d k1) k = lookupD d k := by
  have h1 : ¬ k1 = k := fun hh => h hh.symm
  induction d with
  | nil => simp [dremove, lookupD]
  | cons p rest ih =>
    obtain ⟨k2, v2⟩ := p
    by_cases h2 : k2 = k1
    · simp [dremove, h2, lookupD, h1]
    · by_cases h3 : k2 = k
      · simp [dremove, h2, lookupD, h3, h]
      · simp [dremove, h2, lookupD, h3, ih]

theorem getInt_dinsert_ne (d : SDict) (k k1 : String) (v : PyVal) (h : k ≠ k1) :
    getInt (dinsert d k1 v) k = getInt d k := by
  simp [getInt, lookupD_dinsert_ne d k k1 v h]

theorem getInt_dinsert_int (d : SDict) (k : String) (n : Nat) :
    getInt (dinsert d k (.int n)) k = some n := by
  simp [getInt, lookupD_dinsert_eq]

theorem getInt_dremove_ne (d : SDict) (k k1 : String) (h : k ≠ k1) :
    getInt (dremove d k1) k = getInt d k := by
  simp [getInt, lookupD_dremove_ne d k k1 h]

/-- Normal form of `scheduler_progress_df`: the churn on the local copy
reduces to reading the six input fields directly. -/
theorem scheduler_progress_df_eq (d : SDict) :
    scheduler_progress_df d =
      (do
        let proc ← getDictD d "processing"
        let tasks ← getInt d "tasks"
        let waiting ← getInt d "waiting"
        let ready ← getInt d "ready"
        let failed ← getInt d "failed"
        let inmem ← getInt d "in-memory"
        pure (progressRows waiting ready failed (sumProc proc) inmem tasks)) := by
  cases hp : getDictD d "processing" with
  | none => simp [scheduler_progress_df, hp]
  | some proc =>
    cases ht : getInt d "tasks" with
    | none =>
      simp [scheduler_progress_df, hp, getInt_dinsert_ne, ht]
    | some tasks =>
      cases hw : getInt d "waiting" with
      | none =>
        simp [scheduler_progress_df, hp, getInt_dinsert_ne, getInt_dremove_ne, ht, hw]
      | some w =>
        cases hr : getInt d "ready" with
        | none =>
          simp [scheduler_progress_df, hp, getInt_dinsert_ne, getInt_dremove_ne, ht, hw, hr]
        | some r =>
          cases hf : getInt d "failed" with
          | none =>
            simp [scheduler_progress_df, hp, getInt_dinsert_ne, getInt_dremove_ne,
              ht, hw, hr, hf]
          | some f =>
            cases hm : getInt d "in-memory" with
            | none =>
              simp [scheduler_progress_df, hp, getInt_dinsert_ne, getInt_dremove_ne,
                getInt_dinsert_int, ht, hw, hr, hf, hm]
            | some m =>
              simp [scheduler_progress_df, hp, getInt_dinsert_ne, getInt_dremove_ne,
                getInt_dinsert_int, ht, hw, hr, hf, hm]

theorem mapOptM_length {α β : Type} {f : α → Option β} :
    ∀ {l : List α} {r : List β}, mapOptM f l = some r → r.length = l.length := by
  intro l
  induction l with
  | nil => intro r h; simp [mapOptM] at h; simp [← h]
  | cons x xs ih =>
    intro r h
    simp only [mapOptM, Option.bind_eq_bind] at h
    cases hx : f x with
    | none => rw [hx] at h; simp at h
    | some y =>
      rw [hx] at h
      cases hxs : mapOptM f xs with
      | none => rw [hxs] at h; simp at h
      | some ys =>
        rw [hxs] at h
        simp at h
        simp [← h, ih hxs]

theorem mapOptM_get {α β : Type} {f : α → Option β} :
    ∀ {l : List α} {r : List β}, mapOptM f l = some r →
      ∀ i (hi : i < l.length) (hr : i < r.length),
        f (l.get ⟨i, hi⟩) = some (r.get ⟨i, hr⟩) := by
  intro l
  induction l with
  | nil => intro r _ i hi; exact absurd hi (by simp)
  | cons x xs ih =>
    intro r h i hi hr
    simp only [mapOptM, Option.bind_eq_bind] at h
    cases hx : f x with
    | none => rw [hx] at h; simp at h
    | some y =>
      rw [hx] at h
      cases hxs : mapOptM f xs with
      | none => rw [hxs] at h; simp at h
      | some ys =>
        rw [hxs] at h
        simp at h
        subst h
        cases i with
        | zero => simpa using hx
        | succ j =>
          exact ih hxs j (Nat.lt_of_succ_lt_succ hi) (Nat.lt_of_succ_lt_succ hr)

theorem mapOptM_forall_mem {α β : Type} {f : α → Option β} :
    ∀ {l : List α} {r : List β}, mapOptM f l = some r →
      ∀ y ∈ r, ∃ x ∈ l, f x = some y := by
  intro l
  induction l with
  | nil =>
    intro r h
    simp [mapOptM] at h
    subst h
    intro y hy
    simp at hy
  | cons x xs ih =>
    intro r h y hy
    simp only [mapOptM, Option.bind_eq_bind] at h
    cases hx : f x with
    | none => rw [hx] at h; simp at h
    | some y1 =>
      rw [hx] at h
      cases hxs : mapOptM f xs with
      | none => rw [hxs] at h; simp at h
      | some ys =>
        rw [hxs] at h
        simp at h
        subst h
        rcases List.mem_cons.mp hy with hy | hy
        · exact ⟨x, List.mem_cons_self x xs, hy ▸ hx⟩
        · obtain ⟨x1, hx1, hfx1⟩ := ih hxs y hy
          exact ⟨x1, List.mem_cons_of_mem x hx1, hfx1⟩

theorem mapOptM_map_eq {α β γ : Type} {f : α → Option β} {g : β → γ} {h : α → γ}
    (hgh : ∀ x y, f x = some y → g y = h x) :
    ∀ {l : List α} {r : List β}, mapOptM f l = some r → r.map g = l.map h := by
  intro l
  induction l with
  | nil => intro r hm; simp [mapOptM] at hm; simp [← hm]
  | cons x xs ih =>
    intro r hm
    simp only [mapOptM, Option.bind_eq_bind] at hm
    cases hx : f x with
    | none => rw [hx] at hm; simp at hm
    | some y =>
      rw [hx] at hm
      cases hxs : mapOptM f xs with
      | none => rw [hxs] at hm; simp at hm
      | some ys =>
        rw [hxs] at hm
        simp at hm
        subst hm
        simp [hgh x y hx, ih hxs]

theorem lookupD_incr (acc : List (String × Nat)) (k g : String) :
    lookupD (incr acc k) g =
      if g = k then some ((lookupD acc g).getD 0 + 1) else lookupD acc g := by
  induction acc with
  | nil =>
    by_cases h : g = k
    · simp [incr, lookupD, h]
    · have h4 : ¬ k = g := fun hh => h hh.symm
      simp [incr, lookupD, h, h4]
  | cons p rest ih =>
    obtain ⟨k1, n⟩ := p
    by_cases h1 : k1 = k
    · by_cases h2 : g = k
      · simp [incr, h1, lookupD, h2]
      · have : ¬ k = g := fun hh => h2 hh.symm
        simp [incr, h1, lookupD, h2, this]
    · by_cases h3 : k1 = g
      · have hgk : ¬ g = k := fun hh => h1 (h3.trans hh)
        simp [incr, h1, lookupD, h3, hgk]
      · simp [incr, h1, lookupD, h3, ih]

theorem lookupD_countbyAux (ks : String → String) (g : String) :
    ∀ (xs : List String) (acc : List (String × Nat)),
      (lookupD (countbyAux ks acc xs) g).getD 0 =
        (lookupD acc g).getD 0 + (xs.map ks).count g ∧
      (lookupD (countbyAux ks acc xs) g = none ↔
        lookupD acc g = none ∧ (xs.map ks).count g = 0) := by
  intro xs
  induction xs with
  | nil => intro acc; simp [countbyAux]
  | cons x xs ih =>
    intro acc
    obtain ⟨ih1, ih2⟩ := ih (incr acc (ks x))
    constructor
    · rw [countbyAux, ih1, lookupD_incr]
      by_cases h : g = ks x
      · simp [h, List.count_cons]
        omega
      · have h4 : ¬ ks x = g := fun hh => h hh.symm
        simp [h, List.count_cons, h4]
    · rw [countbyAux, ih2, lookupD_incr]
      by_cases h : g = ks x
      · simp [h, List.count_cons]
      · have h4 : ¬ ks x = g := fun hh => h hh.symm
        simp [h, List.count_cons, h4]

/-- The count map agrees with occurrence counting: a family is present with
count `n` iff it occurs `n > 0` times among the resolved families. -/
theorem lookupD_countby (ks : String → String) (xs : List String) (g : String) :
    lookupD (countby ks xs) g =
      if (xs.map ks).count g = 0 then none else some ((xs.map ks).count g) := by
  obtain ⟨h1, h2⟩ := lookupD_countbyAux ks g xs []
  by_cases h : (xs.map ks).count g = 0
  · simp only [h, if_pos]
    exact (h2.mpr ⟨by simp [lookupD], h⟩)
  · simp only [h, if_neg, if_false]
    cases hc : lookupD (countby ks xs) g with
    | none =>
      obtain ⟨_, hcount⟩ := h2.mp hc
      exact absurd hcount h
    | some n =>
      have heq : n = (xs.map ks).count g := by
        have h5 := h1
        simp only [countby] at hc
        rw [hc] at h5
        simpa [lookupD] using h5
      rw [heq]

/-! ## Lemmas about splitting, joining and stripping -/
theorem splitOnChar_ne_nil (c : Char) (s : List Char) : splitOnChar c s ≠ [] := by
  cases s with
  | nil => simp [splitOnChar]
  | cons x rest =>
    cases h : splitOnChar c rest with
    | nil => simp [splitOnChar, h]
    | cons l ls =>
      simp only [splitOnChar, h]
      split <;> simp

theorem splitFuel_single (c : Char) :
    ∀ (s : List Char) (fuel : Nat), s.length < fuel →
      splitFuel [c] fuel s = splitOnChar c s := by
  intro s
  induction s with
  | nil =>
    intro fuel hf
    cases fuel with
    | zero => omega
    | succ n => simp [splitFuel, splitOnChar]
  | cons x rest ih =>
    intro fuel hf
    cases fuel with
    | zero => omega
    | succ n =>
      have hlt : rest.length < n := by simpa using hf
      by_cases hx : x = c
      · subst hx
        have hpre : ([x].isPrefixOf (x :: rest)) = true := by
          simp [List.isPrefixOf]
        have hstep : splitFuel [x] (n + 1) (x :: rest) = [] :: splitFuel [x] n rest := by
          simp [splitFuel, hpre]
        rw [hstep, ih n hlt]
        cases h : splitOnChar x rest with
        | nil => exact absurd h (splitOnChar_ne_nil x rest)
        | cons l ls => simp [splitOnChar, h]
      · have hpre : ([c].isPrefixOf (x :: rest)) = false := by
          simp [List.isPrefixOf]
          intro hcx
          exact absurd hcx.symm hx
        simp only [splitFuel, hpre, Bool.false_eq_true, if_false, ih n hlt]
        cases h : splitOnChar c rest with
        | nil => exact absurd h (splitOnChar_ne_nil c rest)
        | cons l ls => simp [splitOnChar, h, hx]

theorem splitOnSep_single (c : Char) (s : List Char) :
    splitOnSep [c] s = splitOnChar c s :=
  splitFuel_single c s (s.length + 1) (Nat.lt_succ_self _)

theorem splitOnChar_not_mem (c : Char) :
    ∀ (s : List Char), ∀ l ∈ splitOnChar c s, c ∉ l := by
  intro s
  induction s with
  | nil =>
    intro l hl
    simp [splitOnChar] at hl
    simp [hl]
  | cons x rest ih =>
    intro l hl
    cases h : splitOnChar c rest with
    | nil => exact absurd h (splitOnChar_ne_nil c rest)
    | cons l0 ls0 =>
      simp only [splitOnChar, h] at hl
      by_cases hx : x = c
      · simp only [hx, if_pos rfl] at hl
        rcases List.mem_cons.mp hl with hl | hl
        · simp [hl]
        · exact ih l (h ▸ hl)
      · simp only [hx, if_neg hx] at hl
        rcases List.mem_cons.mp hl with hl | hl
        · subst hl
          intro hc
          rcases List.mem_cons.mp hc with hc | hc
          · exact hx hc.symm
          · exact ih l0 (h ▸ List.mem_cons_self l0 ls0) hc
        · exact ih l (h ▸ List.mem_cons_of_mem l0 hl)

theorem splitOnChar_no_sep (c : Char) :
    ∀ (l : List Char), c ∉ l → splitOnChar c l = [l] := by
  intro l
  induction l with
  | nil => intro _; simp [splitOnChar]
  | cons x rest ih =>
    intro h
    have hx : x ≠ c := fun hh => h (hh ▸ List.mem_cons_self x rest)
    have hr : c ∉ rest := fun hh => h (List.mem_cons_of_mem x hh)
    simp [splitOnChar, ih hr, hx]

theorem splitOnChar_append_sep (c : Char) :
    ∀ (l t : List Char), c ∉ l →
      splitOnChar c (l ++ c :: t) = l :: splitOnChar c t := by
  intro l
  induction l with
  | nil =>
    intro t _
    cases h : splitOnChar c t with
    | nil => exact absurd h (splitOnChar_ne_nil c t)
    | cons l0 ls0 => simp [splitOnChar, h]
  | cons x rest ih =>
    intro t h
    have hx : x ≠ c := fun hh => h (hh ▸ List.mem_cons_self x rest)
    have hr : c ∉ rest := fun hh => h (List.mem_cons_of_mem x hh)
    simp [splitOnChar, ih t hr, hx]

theorem splitOnChar_joinSep (c : Char) :
    ∀ (ls : List (List Char)), ls ≠ [] → (∀ l ∈ ls, c ∉ l) →
      splitOnChar c (joinSep [c] ls) = ls := by
  intro ls
  induction ls with
  | nil => intro h; exact absurd rfl h
  | cons l ls ih =>
    intro _ hmem
    cases ls with
    | nil =>
      simp only [joinSep]
      exact splitOnChar_no_sep c l (hmem l (List.mem_cons_self l []))
    | cons l2 ls2 =>
      have hjoin : joinSep [c] (l :: l2 :: ls2) = l ++ c :: joinSep [c] (l2 :: ls2) := by
        simp [joinSep]
      rw [hjoin,
        splitOnChar_append_sep c l _ (hmem l (List.mem_cons_self l _)),
        ih (by simp) (fun l1 hl1 => hmem l1 (List.mem_cons_of_mem l hl1))]

theorem dropWhile_self {α : Type} (p : α → Bool) (l : List α) :
    List.dropWhile p (List.dropWhile p l) = List.dropWhile p l := by
  induction l with
  | nil => simp
  | cons x rest ih =>
    by_cases h : p x
    · simp [List.dropWhile, h, ih]
    · simp [List.dropWhile, h]

theorem rstrip_idem (l : List Char) : rstrip (rstrip l) = rstrip l := by
  simp [rstrip, dropWhile_self]

theorem rstrip_not_mem {c : Char} {l : List Char} (h : c ∉ l) : c ∉ rstrip l := by
  intro hc
  simp only [rstrip] at hc
  have h2 : c ∈ List.dropWhile isPySpace l.reverse := List.mem_reverse.mp hc
  have h3 : c ∈ l.reverse := List.Sublist.mem h2 (List.dropWhile_sublist isPySpace)
  exact h (List.mem_reverse.mp h3)

/-! ## Assorted lemmas on lookups and inversions -/
theorem lookupD_mem {α : Type} :
    ∀ {l : List (String × α)} {k : String} {v : α},
      lookupD l k = some v → (k, v) ∈ l := by
  intro l
  induction l with
  | nil => intro k v h; simp [lookupD] at h
  | cons p rest ih =>
    intro k v h
    obtain ⟨k1, v1⟩ := p
    by_cases h1 : k1 = k
    · subst h1
      simp [lookupD] at h
      simp [h]
    · simp [lookupD, h1] at h
      exact List.mem_cons_of_mem _ (ih h)

theorem hostEntry_inv {ks : String → String} {now : Int}
    {proc : List (String × List String)} {h : String} {info : HostRecord}
    {e : String × HostOut} (he : hostEntry ks now proc h info = some e) :
    ∃ keyLists,
      mapOptM (lookupD proc) (info.ports.map (fun p => h ++ ":" ++ p)) = some keyLists
      ∧ e = (h, { cores := info.cores, cpu := info.cpu,
                  totalMemory := info.totalMemory,
                  availableMemory := info.availableMemory,
                  ports := info.ports,
                  processing := countby ks keyLists.join,
                  lastSeen := now - info.lastSeen }) := by
  simp only [hostEntry, Option.bind_eq_bind] at he
  cases hm : mapOptM (lookupD proc) (info.ports.map (fun p => h ++ ":" ++ p)) with
  | none => rw [hm] at he; simp at he
  | some keyLists =>
    rw [hm] at he
    simp at he
    exact ⟨keyLists, rfl, he.symm⟩

theorem readCell_writeCell_self (σ : Store) (r : Nat)
    (d : List (String × Nat)) (h : r < σ.cells.length) :
    readCell (writeCell σ r d) r = d := by
  simp [readCell, writeCell]
  obtain ⟨cells⟩ := σ
  simp at h ⊢
  induction cells generalizing r with
  | nil => simp at h
  | cons x rest ih =>
    cases r with
    | zero => simp [List.set, List.getD]
    | succ n =>
      simp [List.set, List.getD] at ih ⊢
      exact ih n (by simpa using h)

/-! ## Inversion of `scheduler_progress_df` -/
theorem scheduler_progress_df_some {d : SDict} {rows : List PRow}
    (hw : scheduler_progress_df d = some rows) :
    ∃ proc t w r f m,
      getDictD d "processing" = some proc ∧ getInt d "tasks" = some t
      ∧ getInt d "waiting" = some w ∧ getInt d "ready" = some r
      ∧ getInt d "failed" = some f ∧ getInt d "in-memory" = some m
      ∧ rows = progressRows w r f (sumProc proc) m t := by
  rw [scheduler_progress_df_eq] at hw
  simp only [Option.bind_eq_bind] at hw
  cases hp : getDictD d "processing" with
  | none => rw [hp] at hw; simp at hw
  | some proc =>
  rw [hp] at hw
  cases ht : getInt d "tasks" with
  | none => rw [ht] at hw; simp at hw
  | some t =>
  rw [ht] at hw
  cases hww : getInt d "waiting" with
  | none => rw [hww] at hw; simp at hw
  | some w =>
  rw [hww] at hw
  cases hrr : getInt d "ready" with
  | none => rw [hrr] at hw; simp at hw
  | some r =>
  rw [hrr] at hw
  cases hff : getInt d "failed" with
  | none => rw [hff] at hw; simp at hw
  | some f =>
  rw [hff] at hw
  cases hmm : getInt d "in-memory" with
  | none => rw [hmm] at hw; simp at hw
  | some m =>
  rw [hmm] at hw
  simp at hw
  exact ⟨proc, t, w, r, f, m, rfl, rfl, rfl, rfl, rfl, rfl, hw.symm⟩

theorem markers_barCell (n : Nat) : markers (PCell.str (barCell n)) = n := by
  simp [markers, barCell, List.count_append, List.count_replicate_self,
    List.count_replicate]

/-! ## C1 -/
/-- C1: for every input dictionary, the `in-progress` count computed by
`scheduler_progress_df` equals the sum, over all worker entries of the
input's `processing` map, of all per-family count values in that worker's
map. -/
theorem C1_in_progress_is_sum (d : SDict)
    (proc : List (String × List (String × Nat))) (rows : List PRow)
    (hp : getDictD d "processing" = some proc)
    (hw : scheduler_progress_df d = some rows) :
    ∃ row, rows.find? (fun r => r.task == "in-progress") = some row
      ∧ row.count = (proc.map (fun wv => (wv.2.map (fun fc => fc.2)).sum)).sum := by
  obtain ⟨proc2, t, w, r, f, m, hp2, _, _, _, _, _, hrows⟩ :=
    scheduler_progress_df_some hw
  have hpp : proc2 = proc := by
    rw [hp] at hp2
    exact (Option.some.inj hp2).symm
  subst hrows
  rw [hpp]
  exact ⟨_, rfl, rfl⟩

/-- C1 witness: on the doctest input the `in-progress` row counts
3 + 1 + 2 = 6. -/
theorem C1_in_progress_is_sum_witness :
    getDictD dEx "processing" =
      some [("192.168.1.107:44544", [("inc", 3), ("add", 1)]),
            ("192.168.1.107:36441", [("inc", 2)])]
    ∧ scheduler_progress_df dEx = some rowsEx
    ∧ ∃ row, rowsEx.find? (fun r => r.task == "in-progress") = some row
        ∧ row.count =
          ([("192.168.1.107:44544", [("inc", 3), ("add", 1)]),
            ("192.168.1.107:36441", [("inc", 2)])].map
              (fun wv => (wv.2.map (fun fc => fc.2)).sum)).sum :=
  ⟨by decide, by decide,
    C1_in_progress_is_sum dEx _ rowsEx (by decide) (by decide)⟩

/-! ## C2 -/
/-- C2 (amended): for every input with `total > 0`, each row renders
`floor(40*count/total)` markers; the `total` row renders exactly 40; a row
whose count exceeds `total` renders at least 40 markers (not clamped), but
not necessarily more than 40. -/
theorem C2_bar_lengths (d : SDict) (rows : List PRow) (t : Nat)
    (hw : scheduler_progress_df d = some rows)
    (ht : getInt d "tasks" = some t) (htpos : 0 < t) :
    (∀ row ∈ rows, markers row.progress = 40 * row.count / t)
    ∧ (∀ row ∈ rows, row.task = "total" → markers row.progress = 40)
    ∧ (∀ row ∈ rows, t < row.count → 40 ≤ markers row.progress) := by
  obtain ⟨proc, t2, w, r, f, m, _, ht2, _, _, _, _, hrows⟩ :=
    scheduler_progress_df_some hw
  obtain rfl : t = t2 := by
    rw [ht] at ht2
    exact Option.some.inj ht2
  subst hrows
  have hne : t ≠ 0 := by omega
  have hforall : ∀ row ∈ progressRows w r f (sumProc proc) m t,
      markers row.progress = 40 * row.count / t := by
    intro row hrow
    simp only [progressRows, List.map_cons, List.map_nil, List.mem_cons,
      List.not_mem_nil, or_false, progressRow] at hrow
    rcases hrow with h | h | h | h | h | h <;>
      · subst h
        simp [hne, markers_barCell]
  refine ⟨hforall, ?_, ?_⟩
  · intro row hrow htask
    rw [hforall row hrow]
    have hcount : row.count = t := by
      simp only [progressRows, List.map_cons, List.map_nil, List.mem_cons,
        List.not_mem_nil, or_false, progressRow] at hrow
      rcases hrow with h | h | h | h | h | h <;> subst h <;> simp_all
    rw [hcount]
    exact Nat.mul_div_cancel _ htpos
  · intro row hrow hlt
    rw [hforall row hrow]
    have h1 : 40 * t ≤ 40 * row.count := Nat.mul_le_mul_left 40 (Nat.le_of_lt hlt)
    have h2 : 40 * t / t ≤ 40 * row.count / t := Nat.div_le_div_right h1
    rw [Nat.mul_div_cancel _ htpos] at h2
    exact h2

/-- C2 witness: on the doctest input (`total = 70`) the bar lengths follow
the floor formula and the `total` row has 40 markers. -/
theorem C2_bar_lengths_witness :
    (getInt dEx "tasks" = some 70 ∧ 0 < 70
      ∧ scheduler_progress_df dEx = some rowsEx)
    ∧ (∀ row ∈ rowsEx, markers row.progress = 40 * row.count / 70) :=
  ⟨⟨by decide, by decide, by decide⟩,
    (C2_bar_lengths dEx rowsEx 70 (by decide) (by decide) (by decide)).1⟩

/-- C2 counterexample: with `total = 100` and `waiting = 101`, the count
exceeds the total but the bar length is exactly 40, not more than 40 — the
claim that the bar length then "exceeds 40" is false. -/
theorem C2_overflow_counterexample :
    getInt dOver "tasks" = some 100
    ∧ scheduler_progress_df dOver = some (progressRows 101 0 0 0 0 100)
    ∧ ∃ row ∈ progressRows 101 0 0 0 0 100,
        row.task = "waiting" ∧ 100 < row.count
        ∧ ¬ 40 < markers row.progress := by
  refine ⟨by decide, by decide, ?_⟩
  decide

/-! ## C3 -/
/-- C3: for every input with `total == 0` (and the six counters present),
the table is produced normally (no error), has its six rows, and every
row's progress cell contains 0 marker units. -/
theorem C3_zero_total_empty_bars (d : SDict)
    (proc : List (String × List (String × Nat))) (w r f m : Nat)
    (hp : getDictD d "processing" = some proc)
    (ht : getInt d "tasks" = some 0)
    (hww : getInt d "waiting" = some w) (hrr : getInt d "ready" = some r)
    (hff : getInt d "failed" = some f) (hmm : getInt d "in-memory" = some m) :
    ∃ rows, scheduler_progress_df d = some rows ∧ rows.length = 6
      ∧ ∀ row ∈ rows, markers row.progress = 0 := by
  refine ⟨progressRows w r f (sumProc proc) m 0, ?_, by simp [progressRows], ?_⟩
  · rw [scheduler_progress_df_eq]
    simp [hp, ht, hww, hrr, hff, hmm]
  · intro row hrow
    simp only [progressRows, List.map_cons, List.map_nil, List.mem_cons,
      List.not_mem_nil, or_false, progressRow] at hrow
    rcases hrow with h | h | h | h | h | h <;> subst h <;> simp [markers]

/-- C3 witness: a concrete input with `total == 0` and nonzero counters
renders six rows, all with empty bars. -/
theorem C3_zero_total_empty_bars_witness :
    (getInt dZero "tasks" = some 0 ∧ getInt dZero "waiting" = some 3)
    ∧ ∃ rows, scheduler_progress_df dZero = some rows ∧ rows.length = 6
        ∧ ∀ row ∈ rows, markers row.progress = 0 :=
  ⟨⟨by decide, by decide⟩,
    C3_zero_total_empty_bars dZero [("w", [("inc", 2)])] 3 1 0 2
      (by decide) (by decide) (by decide) (by decide) (by decide) (by decide)⟩

/-- C10: inputs that agree on the required fields produce identical progress
tables, worker tables and status strings — extra keys never influence any
output — and the caller's dictionary is returned unmodified. -/
theorem C10_noninterference (d1 d2 : SDict)
    (h : ∀ k ∈ requiredKeys, lookupD d1 k = lookupD d2 k) :
    scheduler_progress_df d1 = scheduler_progress_df d2
    ∧ worker_status_df d1 = worker_status_df d2
    ∧ (∀ rP rW nl, scheduler_status_str rP rW nl d1 = scheduler_status_str rP rW nl d2)
    ∧ (scheduler_progress_df_call d1).2 = d1
    ∧ (scheduler_progress_df_call d2).2 = d2 := by
  have hpr : getDictD d1 "processing" = getDictD d2 "processing" := by
    simp only [getDictD, h "processing" (by decide)]
  have hta : getInt d1 "tasks" = getInt d2 "tasks" := by
    simp only [getInt, h "tasks" (by decide)]
  have hwa : getInt d1 "waiting" = getInt d2 "waiting" := by
    simp only [getInt, h "waiting" (by decide)]
  have hre : getInt d1 "ready" = getInt d2 "ready" := by
    simp only [getInt, h "ready" (by decide)]
  have hfa : getInt d1 "failed" = getInt d2 "failed" := by
    simp only [getInt, h "failed" (by decide)]
  have hme : getInt d1 "in-memory" = getInt d2 "in-memory" := by
    simp only [getInt, h "in-memory" (by decide)]
  have hnc : getDictN d1 "ncores" = getDictN d2 "ncores" := by
    simp only [getDictN, h "ncores" (by decide)]
  have hby : getDictN d1 "bytes" = getDictN d2 "bytes" := by
    simp only [getDictN, h "bytes" (by decide)]
  have had : getStr d1 "address" = getStr d2 "address" := by
    simp only [getStr, h "address" (by decide)]
  have h1 : scheduler_progress_df d1 = scheduler_progress_df d2 := by
    rw [scheduler_progress_df_eq, scheduler_progress_df_eq, hpr, hta, hwa, hre,
      hfa, hme]
  have h2 : worker_status_df d1 = worker_status_df d2 := by
    simp only [worker_status_df, hnc, hby, hpr]
  refine ⟨h1, h2, ?_, rfl, rfl⟩
  intro rP rW nl
  simp only [scheduler_status_str, h1, h2, had]

/-- C10 witness: the doctest input with and without an extra key produces
the same tables. -/
theorem C10_noninterference_witness :
    (∀ k ∈ requiredKeys, lookupD dExtra k = lookupD dEx k)
    ∧ scheduler_progress_df dExtra = scheduler_progress_df dEx
    ∧ worker_status_df dExtra = worker_status_df dEx
    ∧ (scheduler_progress_df_call dExtra).2 = dExtra :=
  ⟨by decide, (C10_noninterference dExtra dEx (by decide)).1,
    (C10_noninterference dExtra dEx (by decide)).2.1,
    (C10_noninterference dExtra dEx (by decide)).2.2.2.1⟩

/-! ## C6 -/
theorem wrowBuild_inv {nc bys : List (String × Nat)}
    {pr : List (String × List (String × Nat))} {a : String} {row : WRow}
    (h : wrowBuild nc bys pr a = some row) :
    row.addr = a ∧ ∃ p, lookupD pr a = some p
      ∧ row.processing = sortS (p.map Prod.fst) := by
  simp only [wrowBuild, Option.bind_eq_bind] at h
  cases h1 : lookupD nc a with
  | none => rw [h1] at h; simp at h
  | some n =>
  rw [h1] at h
  cases h2 : lookupD bys a with
  | none => rw [h2] at h; simp at h
  | some b =>
  rw [h2] at h
  cases h3 : lookupD pr a with
  | none => rw [h3] at h; simp at h
  | some p =>
  rw [h3] at h
  simp at h
  subst h
  exact ⟨rfl, p, rfl, rfl⟩

/-- C6: the worker table has one row per worker address, in strictly
ascending lexicographic address order, and each row's `Processing` column is
a strictly sorted (hence duplicate-free) list of exactly the worker's family
names with nonzero count, the counts themselves not shown. -/
theorem C6_worker_table (d : SDict) (nc bys : List (String × Nat))
    (pr : List (String × List (String × Nat))) (rows : List WRow)
    (hn : getDictN d "ncores" = some nc)
    (hb : getDictN d "bytes" = some bys)
    (hp : getDictD d "processing" = some pr)
    (hkb : ∀ a, a ∈ bys.map Prod.fst ↔ a ∈ nc.map Prod.fst)
    (hkp : ∀ a, a ∈ pr.map Prod.fst ↔ a ∈ nc.map Prod.fst)
    (hnd : (nc.map Prod.fst).Nodup)
    (hfnd : ∀ wp ∈ pr, (wp.2.map Prod.fst).Nodup)
    (hnz : ∀ wp ∈ pr, ∀ fc ∈ wp.2, fc.2 ≠ 0)
    (hw : worker_status_df d = some rows) :
    ((rows.map WRow.addr).Pairwise fun a b => sLt a b = true)
    ∧ (rows.map WRow.addr).Perm (nc.map Prod.fst)
    ∧ ∀ row ∈ rows,
        (row.processing.Pairwise fun a b => sLt a b = true)
        ∧ ∃ p, lookupD pr row.addr = some p
            ∧ ∀ fam, (fam ∈ row.processing ↔ ∃ c, (fam, c) ∈ p ∧ c ≠ 0) := by
  simp only [worker_status_df, hn, hb, hp, Option.bind_eq_bind,
    Option.some_bind] at hw
  set U := (nc.map Prod.fst ++ bys.map Prod.fst ++ pr.map Prod.fst).dedup with hU
  have haddr : rows.map WRow.addr = (sortS U).map id :=
    mapOptM_map_eq (fun a row hrow => (wrowBuild_inv hrow).1) hw
  rw [List.map_id] at haddr
  have hUnodup : U.Nodup := List.nodup_dedup _
  refine ⟨?_, ?_, ?_⟩
  · rw [haddr]
    exact sortS_pairwise_strict U hUnodup
  · rw [haddr]
    refine (sortS_perm U).trans ?_
    refine List.perm_of_nodup_nodup_toFinset_eq hUnodup hnd ?_
    ext a
    simp only [List.mem_toFinset, hU, List.mem_dedup, List.mem_append]
    constructor
    · rintro ((h1 | h1) | h1)
      · exact h1
      · exact (hkb a).mp h1
      · exact (hkp a).mp h1
    · intro h1
      exact Or.inl (Or.inl h1)
  · intro row hrow
    obtain ⟨a, _, hbuild⟩ := mapOptM_forall_mem hw row hrow
    obtain ⟨haddr2, p, hlook, hproc⟩ := wrowBuild_inv hbuild
    have hmem : (a, p) ∈ pr := lookupD_mem hlook
    have hpnd : (p.map Prod.fst).Nodup := hfnd (a, p) hmem
    refine ⟨?_, ⟨p, haddr2 ▸ hlook, ?_⟩⟩
    · rw [hproc]
      exact sortS_pairwise_strict _ hpnd
    · intro fam
      rw [hproc]
      rw [sortS_mem]
      constructor
      · intro hfam
        obtain ⟨fc, hfc, hfst⟩ := List.mem_map.mp hfam
        refine ⟨fc.2, ?_, hnz (a, p) hmem fc hfc⟩
        have : ((fam, fc.2) : String × Nat) = fc := by
          obtain ⟨f1, c1⟩ := fc
          simp at hfst
          simp [hfst]
        rw [this]
        exact hfc
      · rintro ⟨c, hc, _⟩
        exact List.mem_map.mpr ⟨(fam, c), hc, rfl⟩

/-- C6 witness: on the doctest input the rows come out sorted by address
(`...36441` before `...44544`) with sorted family lists. -/
theorem C6_worker_table_witness :
    (getDictN dEx "ncores" =
        some [("192.168.1.107:44544", 4), ("192.168.1.107:36441", 4)]
      ∧ worker_status_df dEx = some
        [⟨"192.168.1.107:36441", 4, 2000, ["inc"]⟩,
         ⟨"192.168.1.107:44544", 4, 1000, ["add", "inc"]⟩])
    ∧ (([⟨"192.168.1.107:36441", 4, 2000, ["inc"]⟩,
         ⟨"192.168.1.107:44544", 4, 1000, ["add", "inc"]⟩] : List WRow).map
          WRow.addr).Pairwise (fun a b => sLt a b = true) := by
  refine ⟨⟨by decide, by decide⟩, ?_⟩
  exact (C6_worker_table dEx
    [("192.168.1.107:44544", 4), ("192.168.1.107:36441", 4)]
    [("192.168.1.107:44544", 1000), ("192.168.1.107:36441", 2000)]
    [("192.168.1.107:44544", [("inc", 3), ("add", 1)]),
     ("192.168.1.107:36441", [("inc", 2)])]
    [⟨"192.168.1.107:36441", 4, 2000, ["inc"]⟩,
     ⟨"192.168.1.107:44544", 4, 1000, ["add", "inc"]⟩]
    (by decide) (by decide) (by decide) (fun a => Iff.rfl) (fun a => Iff.rfl)
    (by decide) (by decide) (by decide) (by decide)).1

/-- C4 counterexample: a host record with `available-memory` equal to
`total-memory` (and a negative `cores` count) is not rejected: `workers`
succeeds and passes the values through to the output unchanged. -/
theorem C4_no_validation_counterexample :
    workersAgg (fun k => k) 0 sBad = some [("h", hoBad)]
    ∧ ¬ hoBad.availableMemory < hoBad.totalMemory
    ∧ hoBad.cores < 0 :=
  ⟨by decide, by decide, by decide⟩

/-- C4 (amended): the aggregation validates nothing: whenever it returns a
result, every host's resource fields are the input record's values
unchanged, whether or not they satisfy the documented preconditions. -/
theorem C4_fields_passed_through (ks : String → String) (now : Int)
    (s : WState) (res : List (String × HostOut))
    (hw : workersAgg ks now s = some res)
    (i : Nat) (hi : i < s.host_info.length) (hr : i < res.length) :
    (res.get ⟨i, hr⟩).2.availableMemory
        = (s.host_info.get ⟨i, hi⟩).2.availableMemory
    ∧ (res.get ⟨i, hr⟩).2.totalMemory = (s.host_info.get ⟨i, hi⟩).2.totalMemory
    ∧ (res.get ⟨i, hr⟩).2.cores = (s.host_info.get ⟨i, hi⟩).2.cores
    ∧ (res.get ⟨i, hr⟩).2.cpu = (s.host_info.get ⟨i, hi⟩).2.cpu := by
  have hge := mapOptM_get hw i hi hr
  obtain ⟨kl, _, he⟩ := hostEntry_inv hge
  rw [he]
  exact ⟨rfl, rfl, rfl, rfl⟩

/-- C4 witness: the violating record of `sBad` flows through unchanged. -/
theorem C4_fields_passed_through_witness :
    workersAgg (fun k => k) 0 sBad = some [("h", hoBad)]
    ∧ hoBad.availableMemory = recBad.availableMemory
    ∧ hoBad.totalMemory = recBad.totalMemory :=
  ⟨by decide,
    (C4_fields_passed_through (fun k => k) 0 sBad [("h", hoBad)] (by decide)
      0 (by decide) (by decide)).1,
    (C4_fields_passed_through (fun k => k) 0 sBad [("h", hoBad)] (by decide)
      0 (by decide) (by decide)).2.1⟩

/-- C5 counterexample: the host of `sNoW` has no worker entries (its
`ports` list is empty and no worker appears in `processing`), yet `workers`
emits an entry for it, with empty aggregate processing. -/
theorem C5_empty_host_emitted_counterexample :
    sNoW.host_info = [("h", recNoW)] ∧ recNoW.ports = []
    ∧ sNoW.processing = []
    ∧ workersAgg (fun k => k) 0 sNoW = some [("h", hoNoW)] :=
  ⟨by decide, by decide, by decide, by decide⟩

/-- C5 (amended): the output of `workers` has exactly one entry per host of
`host_info`, in order — so a host absent from `host_info` is never emitted,
but a `host_info` host with no worker entries is emitted. -/
theorem C5_hosts_exactly_host_info (ks : String → String) (now : Int)
    (s : WState) (res : List (String × HostOut))
    (hw : workersAgg ks now s = some res) :
    res.map Prod.fst = s.host_info.map Prod.fst := by
  refine mapOptM_map_eq (fun x y hxy => ?_) hw
  obtain ⟨kl, _, he⟩ := hostEntry_inv hxy
  rw [he]

/-- C5 witness. -/
theorem C5_hosts_exactly_host_info_witness :
    workersAgg (fun k => k) 0 sNoW = some [("h", hoNoW)]
    ∧ [("h", hoNoW)].map Prod.fst = sNoW.host_info.map Prod.fst :=
  ⟨by decide,
    C5_hosts_exactly_host_info (fun k => k) 0 sNoW [("h", hoNoW)] (by decide)⟩

/-- C7: each emitted host's `processing` map counts, for every worker on
the host (addresses `host:port` in port order) and every key that worker is
processing, the key's family as resolved by the injected extractor: a
family is present with count `n` iff exactly `n > 0` of those keys resolve
to it; `ports` are passed through in discovery order. -/
theorem C7_host_processing (ks : String → String) (now : Int) (s : WState)
    (res : List (String × HostOut)) (hw : workersAgg ks now s = some res)
    (i : Nat) (hi : i < s.host_info.length) (hr : i < res.length) :
    ∃ keyLists,
      mapOptM (lookupD s.processing)
          ((s.host_info.get ⟨i, hi⟩).2.ports.map
            (fun p => (s.host_info.get ⟨i, hi⟩).1 ++ ":" ++ p)) = some keyLists
      ∧ (res.get ⟨i, hr⟩).1 = (s.host_info.get ⟨i, hi⟩).1
      ∧ (res.get ⟨i, hr⟩).2.ports = (s.host_info.get ⟨i, hi⟩).2.ports
      ∧ ∀ fam, lookupD (res.get ⟨i, hr⟩).2.processing fam =
          (if (keyLists.join.map ks).count fam = 0 then none
           else some ((keyLists.join.map ks).count fam)) := by
  have hge := mapOptM_get hw i hi hr
  obtain ⟨kl, hkl, he⟩ := hostEntry_inv hge
  refine ⟨kl, hkl, ?_, ?_, ?_⟩
  · rw [he]
  · rw [he]
  · intro fam
    rw [he]
    exact lookupD_countby ks kl.join fam

/-- C7 witness: scenario B aggregates to `{inc: 5, add: 1}` with ports in
discovery order. -/
theorem C7_host_processing_witness :
    (workersAgg ksFam 0 sB = some [("192.168.1.107", hoB)]
      ∧ lookupD hoB.processing "inc" = some 5
      ∧ lookupD hoB.processing "add" = some 1
      ∧ hoB.ports = ["44544", "36441"])
    ∧ ∃ keyLists,
        mapOptM (lookupD sB.processing)
            ((sB.host_info.get ⟨0, by decide⟩).2.ports.map
              (fun p => (sB.host_info.get ⟨0, by decide⟩).1 ++ ":" ++ p))
          = some keyLists
        ∧ ([("192.168.1.107", hoB)].get ⟨0, by decide⟩).1
            = (sB.host_info.get ⟨0, by decide⟩).1
        ∧ ([("192.168.1.107", hoB)].get ⟨0, by decide⟩).2.ports
            = (sB.host_info.get ⟨0, by decide⟩).2.ports
        ∧ ∀ fam, lookupD ([("192.168.1.107", hoB)].get ⟨0, by decide⟩).2.processing fam =
            (if (keyLists.join.map ksFam).count fam = 0 then none
             else some ((keyLists.join.map ksFam).count fam)) :=
  ⟨⟨by decide, by decide, by decide, by decide⟩,
    C7_host_processing ksFam 0 sB [("192.168.1.107", hoB)] (by decide)
      0 (by decide) (by decide)⟩

theorem statusAgg_ncoresRef {ks : String → String} {s : SchedState}
    {σ : Store} {res : StatusResult} (h : statusAgg ks s σ = some res) :
    res.ncores = s.ncoresRef := by
  simp only [statusAgg, Option.bind_eq_bind] at h
  rw [Option.bind_eq_some] at h
  obtain ⟨bytes, _, h2⟩ := h
  simp at h2
  rw [← h2]

/-- C9 counterexample: the `ncores` field of the value `status` has already
returned still aliases the scheduler's live `ncores` dictionary — mutating
the store cell afterwards changes what the returned result refers to. -/
theorem C9_alias_counterexample :
    statusAgg (fun k => k) s9 store9 = some res9
    ∧ readCell (writeCell store9 s9.ncoresRef [("w1", 8)]) res9.ncores
        ≠ readCell store9 res9.ncores :=
  ⟨by decide, by decide⟩

/-- C9 (amended): every field of the `status` result is a computed value
except `ncores`, which is returned by reference: it equals the scheduler's
`ncoresRef`, so any later write to the scheduler's `ncores` cell is
observed through the already-returned result. -/
theorem C9_ncores_aliased (ks : String → String) (s : SchedState) (σ : Store)
    (res : StatusResult) (hw : statusAgg ks s σ = some res)
    (hv : s.ncoresRef < σ.cells.length) :
    res.ncores = s.ncoresRef
    ∧ ∀ dd, readCell (writeCell σ s.ncoresRef dd) res.ncores = dd := by
  have h1 := statusAgg_ncoresRef hw
  refine ⟨h1, fun dd => ?_⟩
  rw [h1]
  exact readCell_writeCell_self σ _ dd hv

/-- C9 witness. -/
theorem C9_ncores_aliased_witness :
    (statusAgg (fun k => k) s9 store9 = some res9
      ∧ s9.ncoresRef < store9.cells.length)
    ∧ res9.ncores = s9.ncoresRef
    ∧ readCell (writeCell store9 s9.ncoresRef [("w1", 8)]) res9.ncores
        = [("w1", 8)] :=
  ⟨⟨by decide, by decide⟩,
    (C9_ncores_aliased (fun k => k) s9 store9 res9 (by decide) (by decide)).1,
    (C9_ncores_aliased (fun k => k) s9 store9 res9 (by decide) (by decide)).2
      [("w1", 8)]⟩

theorem fmt_newline (addrD p w : List Char) :
    splitOnChar '\n' (scheduler_status_str_fmt ['\n'] addrD p w) =
      (splitOnChar '\n' (composedStatus addrD p w)).map rstrip
    ∧ ∀ l ∈ splitOnChar '\n' (scheduler_status_str_fmt ['\n'] addrD p w),
        rstrip l = l := by
  have hsplit : splitOnSep ['\n'] (composedStatus addrD p w)
      = splitOnChar '\n' (composedStatus addrD p w) :=
    splitOnSep_single '\n' (composedStatus addrD p w)
  set Ls := (splitOnChar '\n' (composedStatus addrD p w)).map rstrip with hLs
  have hne : Ls ≠ [] := by
    rcases h : splitOnChar '\n' (composedStatus addrD p w) with _ | ⟨l, ls⟩
    · exact absurd h (splitOnChar_ne_nil _ _)
    · simp [hLs, h]
  have hmem : ∀ l ∈ Ls, '\n' ∉ l := by
    intro l hl
    obtain ⟨l0, hl0, rfl⟩ := List.mem_map.mp hl
    exact rstrip_not_mem (splitOnChar_not_mem '\n' (composedStatus addrD p w) l0 hl0)
  have hEq : scheduler_status_str_fmt ['\n'] addrD p w = joinSep ['\n'] Ls := by
    simp only [scheduler_status_str_fmt, hsplit, hLs]
  rw [hEq, splitOnChar_joinSep '\n' Ls hne hmem]
  refine ⟨rfl, ?_⟩
  intro l hl
  obtain ⟨l0, _, rfl⟩ := List.mem_map.mp hl
  exact rstrip_idem l0

/-- C8 (amended): on a platform whose line separator is `"\n"`, the status
string is the composition `Scheduler: {address}`, blank line, progress
table, blank line, worker table, with every line's trailing whitespace
stripped (per-line: splitting the result again recovers exactly the
stripped lines of the composition, and no line of the result has trailing
whitespace). -/
theorem C8_status_string (rP : List PRow → List Char)
    (rW : List WRow → List Char) (d : SDict) (out : List Char)
    (hw : scheduler_status_str rP rW ['\n'] d = some out) :
    ∃ sched wrows addr,
      scheduler_progress_df d = some sched
      ∧ worker_status_df d = some wrows
      ∧ getStr d "address" = some addr
      ∧ splitOnChar '\n' out =
          (splitOnChar '\n'
            (composedStatus addr.data (rP sched) (rW wrows))).map rstrip
      ∧ ∀ l ∈ splitOnChar '\n' out, rstrip l = l := by
  simp only [scheduler_status_str, Option.bind_eq_bind] at hw
  cases h1 : scheduler_progress_df d with
  | none => rw [h1] at hw; simp at hw
  | some sched =>
  rw [h1] at hw
  cases h2 : worker_status_df d with
  | none => rw [h2] at hw; simp at hw
  | some wrows =>
  rw [h2] at hw
  cases h3 : getStr d "address" with
  | none => rw [h3] at hw; simp at hw
  | some addr =>
  rw [h3] at hw
  simp at hw
  subst hw
  exact ⟨sched, wrows, addr, rfl, rfl, rfl,
    (fmt_newline addr.data (rP sched) (rW wrows)).1,
    (fmt_newline addr.data (rP sched) (rW wrows)).2⟩

/-- C8 witness: on the doctest input, with `"\n"` as the separator, the
trailing space of the rendered progress line is stripped in the output. -/
theorem C8_status_string_witness :
    scheduler_status_str rPx rWx ['\n'] dEx
        = some "Scheduler: SCHEDULER_ADDRESS:9999\n\nx\n\ny".data
    ∧ ∃ sched wrows addr,
        scheduler_progress_df dEx = some sched
        ∧ worker_status_df dEx = some wrows
        ∧ getStr dEx "address" = some addr
        ∧ splitOnChar '\n' "Scheduler: SCHEDULER_ADDRESS:9999\n\nx\n\ny".data =
            (splitOnChar '\n'
              (composedStatus addr.data (rPx sched) (rWx wrows))).map rstrip
        ∧ ∀ l ∈ splitOnChar '\n' "Scheduler: SCHEDULER_ADDRESS:9999\n\nx\n\ny".data,
            rstrip l = l :=
  ⟨by decide, C8_status_string rPx rWx dEx _ (by decide)⟩

/-- C8 counterexample: with the platform separator `"\r\n"` the source
still composes with `"\n"`, so the split-strip-join step sees one single
piece: the output keeps a line (`"x "`) with trailing whitespace, and the
separators remain `"\n"` rather than the platform separator. -/
theorem C8_crlf_counterexample :
    scheduler_status_str rPx rWx ['\r', '\n'] dEx
        = some "Scheduler: SCHEDULER_ADDRESS:9999\n\nx \n\ny".data
    ∧ ∃ l ∈ splitOnChar '\n' "Scheduler: SCHEDULER_ADDRESS:9999\n\nx \n\ny".data,
        rstrip l ≠ l :=
  ⟨by decide, by decide⟩

end SchedDiag
